import Mathlib

/-!
Verification of the attrs-to-inline-expression converter (attrs_parser.py).

The development shallowly embeds the expression translator
(AttrsParser.__convert_prefix_to_python_expression together with the operator
rendering table), the placeholder protection pair (the two re.sub calls in
preprocess and postprocess), and the per-file processing order of process_xml.
Python literal values are modelled by an inductive type; Python exceptions
(KeyError from the OPERATORS dict lookup, IndexError from list pops and
indexing, TypeError from iterating a non-sequence) are modelled by an
explicit error type and Except.
-/

namespace Attrs

/-- Python literal values that can appear in a condition triple: booleans,
integers, strings (assumed free of characters needing escapes in repr) and
lists. -/
inductive PyVal : Type
| bool (b : Bool)
| int (n : Int)
| str (s : String)
| list (xs : List PyVal)

/-- The single-quote character, written via its code point. -/
def quoteChar : Char := Char.ofNat 39

/-- The single-quote character as a one-character string. -/
def quoteStr : String := String.singleton quoteChar

mutual

/-- Python repr of a literal value: True/False for booleans, decimal for
integers, single-quoted for strings, bracketed comma-separated items for
lists. -/
def pyRepr : PyVal → String
| .bool b => if b then "True" else "False"
| .int n => toString n
| .str s => quoteStr ++ s ++ quoteStr
| .list xs => "[" ++ pyReprItems xs ++ "]"

/-- Comma-separated reprs of the items of a list value. -/
def pyReprItems : List PyVal → String
| [] => ""
| [x] => pyRepr x
| x :: y :: rest => pyRepr x ++ ", " ++ pyReprItems (y :: rest)

end

/-- Python str of a literal value: identical to repr except that a string
is rendered without quotes.  This is what an f-string interpolation of the
value produces. -/
def pyStr : PyVal → String
| .str s => s
| v => pyRepr v

/-- Whether the value is a Python bool (isinstance(value, bool)). -/
def isBoolVal : PyVal → Bool
| .bool _ => true
| _ => false

/-- The Python exceptions the translator can raise: KeyError from the
OPERATORS dict lookup, IndexError from pop or indexing on a too-short list,
TypeError from iterating a non-sequence. -/
inductive PyError : Type
| keyError
| indexError
| typeError
deriving DecidableEq

/-- Embeds equals_operator: terse truthy/negated form for booleans, an
explicit == comparison against repr(value) otherwise. -/
def equals_operator (field : String) (value : PyVal) : String :=
  match value with
  | .bool b => if b then field else "not " ++ field
  | v => field ++ " == " ++ pyRepr v

/-- Embeds not_equals_operator: negated truthy form for booleans, an
explicit != comparison against repr(value) otherwise. -/
def not_equals_operator (field : String) (value : PyVal) : String :=
  match value with
  | .bool b => if b then "not " ++ field else field
  | v => field ++ " != " ++ pyRepr v

/-- Embeds the AttrsParser.OPERATORS dict: a lookup from the operator string
to the rendering function; none models a KeyError on lookup.  Note that the
in / not in lambdas interpolate the value with str() while the comparison
operators use repr(). -/
def OPERATORS : String → Option (String → PyVal → String)
| "=" => some equals_operator
| "!=" => some not_equals_operator
| "in" => some (fun field value => field ++ " in " ++ pyStr value)
| "not in" => some (fun field value => field ++ " not in " ++ pyStr value)
| ">" => some (fun field value => field ++ " > " ++ pyRepr value)
| "<" => some (fun field value => field ++ " < " ++ pyRepr value)
| ">=" => some (fun field value => field ++ " >= " ++ pyRepr value)
| "<=" => some (fun field value => field ++ " <= " ++ pyRepr value)
| _ => none

/-- Rendering of one condition triple: OPERATORS[token[1]](token[0], token[2]),
with the dict lookup failure surfaced as a KeyError. -/
def renderCondition (field op : String) (value : PyVal) : Except PyError String :=
  match OPERATORS op with
  | none => .error .keyError
  | some f => .ok (f field value)

/-- The rendering the spec sentence of claim C3 describes, built from the
spec words only (field, blank, operator, blank, canonical literal with
strings quoted and sequences bracketed); used to compare the code's
behaviour against the claim. -/
def specRender (field op : String) (value : PyVal) : String :=
  field ++ " " ++ op ++ " " ++ pyRepr value

/-- One element of the attrs expression sequence: either a condition triple
(field, operator, value) or a bare string; the scan recognises the join
strings and silently skips any other non-tuple token. -/
inductive Token : Type
| cond (field : String) (op : String) (value : PyVal)
| str (s : String)

/-- The whole attrs value handed to the translator: an integer literal, a
Python boolean, or a sequence of tokens. -/
inductive Input : Type
| intLit (n : Int)
| boolLit (b : Bool)
| seq (tokens : List Token)

/-- Python == between the whole input value and an integer, as used by the
membership test in [0, 1]: ints compare numerically, booleans compare as
0/1 (False == 0 and True == 1 hold in Python), lists never equal an int. -/
def pyEqInt : Input → Int → Bool
| .intLit n, m => n == m
| .boolLit b, m => (if b then (1 : Int) else 0) == m
| .seq _, _ => false

/-- Python bool() of the input value, used by str(bool(...)) in the 0/1
shortcut branch. -/
def pyTruthy : Input → Bool
| .intLit n => n != 0
| .boolLit b => b
| .seq xs => !xs.isEmpty

/-- The right-to-left scan of the translator, processing the already
reversed token list against the stack (head of the list = top of the
stack).  A condition is rendered and pushed; a join string pops left then
right and pushes the parenthesised combination; a pop on a too-short stack
is an IndexError; any other string is skipped. -/
def runTokens : List Token → List String → Except PyError (List String)
| [], stack => .ok stack
| .cond f op v :: ts, stack =>
  match OPERATORS op with
  | none => .error .keyError
  | some g => runTokens ts (g f v :: stack)
| .str s :: ts, stack =>
  if s = "&" ∨ s = "|" then
    match stack with
    | left :: right :: rest =>
      runTokens ts
        (("(" ++ left ++ (if s = "&" then " and " else " or ") ++ right ++ ")") :: rest)
    | _ => .error .indexError
  else runTokens ts stack

/-- The implicit-AND while loop: while the stack has more than one string,
pop right (the top), pop left, push "(left and right)". -/
def collapse : List String → List String
| [] => []
| [s] => [s]
| a :: b :: rest => collapse (("(" ++ b ++ " and " ++ a ++ ")") :: rest)
termination_by s => s.length

/-- The end of the translator: the debug print evaluates stack[0], which
raises IndexError on an empty stack; otherwise stack[0] (the bottom of the
stack, i.e. the last element in the top-first representation) is returned.
The guarded expression stack[0] if stack else the empty string is therefore
reachable only with a non-empty stack. -/
def finishStack : List String → Except PyError String
| [] => .error .indexError
| s :: rest => .ok ((s :: rest).getLast (List.cons_ne_nil s rest))

/-- Embeds AttrsParser.__convert_prefix_to_python_expression: the 0/1
shortcut (via Python ==, so booleans take it too), then the reversed scan,
the implicit-AND collapse, and the final stack[0] access. -/
def convertExpr (input : Input) : Except PyError String :=
  if pyEqInt input 0 || pyEqInt input 1 then
    .ok (if pyTruthy input then "True" else "False")
  else
    match input with
    | .seq tokens =>
      match runTokens tokens.reverse [] with
      | .error e => .error e
      | .ok st => finishStack (collapse st)
    | _ => .error .typeError

/-- Number of join tokens in a token list. -/
def countJoins : List Token → Nat
| [] => 0
| .str s :: ts => (if s = "&" ∨ s = "|" then 1 else 0) + countJoins ts
| _ :: ts => countJoins ts

/-- Number of condition triples in a token list. -/
def countConds : List Token → Nat
| [] => 0
| .cond _ _ _ :: ts => 1 + countConds ts
| _ :: ts => countConds ts

/-- The character class of a placeholder name in the two regexes:
lower/upper case letters, underscore and dot. -/
def isName (c : Char) : Bool :=
  (( 'a' ≤ c && c ≤ 'z') || ( 'A' ≤ c && c ≤ 'Z') || c = '_' || c = '.')

/-- Anchored match of the placeholder pattern percent, open paren, a
non-empty run of name characters, close paren, the letter d; returns the
matched text and the remainder.  Both regexes of preprocess and postprocess
match exactly this placeholder body. -/
def matchPH : List Char → Option (List Char × List Char)
| [] => none
| [_] => none
| c1 :: c2 :: rest =>
  if c1 = '%' ∧ c2 = '(' then
    match rest.dropWhile isName with
    | c3 :: c4 :: r =>
      if c3 = ')' ∧ c4 = 'd' ∧ rest.takeWhile isName ≠ [] then
        some (c1 :: c2 :: (rest.takeWhile isName ++ [c3, c4]), r)
      else none
    | [_] => none
    | [] => none
  else none

/-- The remainder of a successful placeholder match is strictly shorter
than the input; this justifies the recursion of protect and unprotect. -/
def matchPH_some_len : ∀ (s m r : List Char), matchPH s = some (m, r) → r.length < s.length := by
  intro s m r h
  match s with
  | [] => simp [matchPH] at h
  | [c] => simp [matchPH] at h
  | c1 :: c2 :: rest =>
    simp only [matchPH] at h
    split at h
    · split at h
      · rename_i c3 c4 r2 heq
        split at h
        · simp only [Option.some.injEq, Prod.mk.injEq] at h
          obtain ⟨-, hr⟩ := h
          subst hr
          have hle : (rest.dropWhile isName).length ≤ rest.length :=
            (List.dropWhile_sublist _).length_le
          rw [heq] at hle
          simp only [List.length_cons] at hle ⊢
          omega
        · exact absurd h (by simp)
      · exact absurd h (by simp)
      · exact absurd h (by simp)
    · exact absurd h (by simp)

/-- Embeds the preprocess substitution re.sub on %(name)d: scan left to
right; at a placeholder match emit the match wrapped in single quotes and
continue after it, otherwise copy one character. -/
def protect : List Char → List Char
| [] => []
| c :: cs =>
  match h : matchPH (c :: cs) with
  | some (m, r) => quoteChar :: (m ++ (quoteChar :: protect r))
  | none => c :: protect cs
termination_by s => s.length
decreasing_by
· exact matchPH_some_len _ _ _ h
· simp

/-- Embeds the postprocess substitution re.sub on quoted placeholders: scan
left to right; at a single quote followed by a placeholder match followed by
a single quote, emit the bare match and continue after the closing quote;
otherwise copy one character. -/
def unprotect : List Char → List Char
| [] => []
| c :: cs =>
  if c = quoteChar then
    match h : matchPH cs with
    | some (m, r0 :: rt) =>
      if r0 = quoteChar then m ++ unprotect rt else c :: unprotect cs
    | some (_, []) => c :: unprotect cs
    | none => c :: unprotect cs
  else c :: unprotect cs
termination_by s => s.length
decreasing_by
· have := matchPH_some_len _ _ _ h
  simp only [List.length_cons] at this ⊢
  omega
· simp
· simp
· simp
· simp

/-- A view file as the pipeline sees it: the raw text on disk, and the
attrs expression values the attribute locator finds in the parsed tree
(the XML parsing itself is external library code and is abstracted to this
list). -/
structure ViewDoc : Type where
  text : List Char
  attrsExprs : List Input

/-- Translation of every located attrs expression; the first raised
exception aborts the rest, as the for loop over elements does. -/
def translateAll : List Input → Except PyError (List String)
| [] => .ok []
| e :: es =>
  match convertExpr e with
  | .error err => .error err
  | .ok s =>
    match translateAll es with
    | .error err => .error err
    | .ok rest => .ok (s :: rest)

/-- The error trace of process_xml for one file: preprocess first writes
the protected text to disk, then convert_attrs translates the located
expressions; if a translation raises, the exception propagates and the
disk is left holding the text preprocess wrote.  Returns the exception and
the on-disk text at that moment, or none when no translator-level error
occurs. -/
def processXmlErr (d : ViewDoc) : Option (PyError × List Char) :=
  match translateAll d.attrsExprs with
  | .error e => some (e, protect d.text)
  | .ok _ => none

/-- The main loop over input files: each file is processed in turn and an
uncaught exception terminates the whole program, so files after a failing
one are never attempted.  Returns one entry per attempted file. -/
def runBatch : List ViewDoc → List (Option PyError)
| [] => []
| d :: ds =>
  match processXmlErr d with
  | some (e, _) => [some e]
  | none => none :: runBatch ds

theorem protect_nil : protect [] = [] := by simp [protect]

theorem protect_cons_some (c : Char) (cs m r : List Char) (h : matchPH (c :: cs) = some (m, r)) :
    protect (c :: cs) = quoteChar :: (m ++ (quoteChar :: protect r)) := by
  simp only [protect]
  split
  · rename_i m2 r2 heq
    rw [h] at heq
    simp only [Option.some.injEq, Prod.mk.injEq] at heq
    rw [heq.1, heq.2]
  · rename_i heq
    rw [h] at heq
    exact absurd heq (by simp)

theorem protect_cons_none (c : Char) (cs : List Char) (h : matchPH (c :: cs) = none) :
    protect (c :: cs) = c :: protect cs := by
  simp only [protect]
  split
  · rename_i m2 r2 heq
    rw [h] at heq
    exact absurd heq (by simp)
  · rfl

theorem unprotect_nil : unprotect [] = [] := by simp [unprotect]

theorem unprotect_quote_matched (cs m rt : List Char)
    (h : matchPH cs = some (m, quoteChar :: rt)) :
    unprotect (quoteChar :: cs) = m ++ unprotect rt := by
  simp only [unprotect]
  split
  · split
    · rename_i m2 r0 rt2 heq
      rw [h] at heq
      simp only [Option.some.injEq, Prod.mk.injEq, List.cons.injEq] at heq
      obtain ⟨hm, hq, hrt⟩ := heq
      rw [hm, hrt, if_pos hq.symm]
    · rename_i m2 heq
      rw [h] at heq
      simp at heq
    · rename_i heq
      rw [h] at heq
      exact absurd heq (by simp)
  · rename_i hfalse
    simp at hfalse

theorem unprotect_quote_unmatched (cs : List Char)
    (h : ∀ m rt, matchPH cs ≠ some (m, quoteChar :: rt)) :
    unprotect (quoteChar :: cs) = quoteChar :: unprotect cs := by
  simp only [unprotect]
  split
  · split
    · rename_i m2 r0 rt2 heq
      rw [if_neg]
      intro hq
      rw [hq] at heq
      exact h m2 rt2 heq
    · rfl
    · rfl
  · rename_i hfalse
    simp at hfalse

theorem unprotect_other (c : Char) (cs : List Char) (h : c ≠ quoteChar) :
    unprotect (c :: cs) = c :: unprotect cs := by
  simp only [unprotect, if_neg h]

theorem matchPH_head_ne (c : Char) (hc : c ≠ '%') (l : List Char) : matchPH (c :: l) = none := by
  cases l with
  | nil => rfl
  | cons c2 l2 => simp [matchPH, hc]

theorem matchPH_second_ne (c2 : Char) (hc2 : c2 ≠ '(') (c1 : Char) (l : List Char) :
    matchPH (c1 :: c2 :: l) = none := by
  simp [matchPH, hc2]

theorem takeWhile_all_isName (l : List Char) : (l.takeWhile isName).all isName = true := by
  rw [List.all_eq_true]
  intro x hx
  exact List.mem_takeWhile_imp hx

theorem takeWhile_all_append (run : List Char) (h : run.all isName = true)
    (c : Char) (hc : isName c = false) (l : List Char) :
    (run ++ c :: l).takeWhile isName = run ∧ (run ++ c :: l).dropWhile isName = c :: l := by
  induction run with
  | nil => simp [List.takeWhile_cons, List.dropWhile_cons, hc]
  | cons a rs ih =>
    simp only [List.all_cons, Bool.and_eq_true] at h
    have hrec := ih h.2
    simp [List.cons_append, List.takeWhile_cons, List.dropWhile_cons, h.1, hrec.1, hrec.2]

theorem matchPH_parts (s m r : List Char) (h : matchPH s = some (m, r)) :
    s = m ++ r ∧
      ∃ run, run ≠ [] ∧ run.all isName = true ∧ m = '%' :: '(' :: (run ++ [')', 'd']) := by
  match s with
  | [] => simp [matchPH] at h
  | [c] => simp [matchPH] at h
  | c1 :: c2 :: rest =>
    simp only [matchPH] at h
    split at h
    · rename_i hcc
      split at h
      · rename_i c3 c4 r2 heq
        split at h
        · rename_i hcond
          simp only [Option.some.injEq, Prod.mk.injEq] at h
          obtain ⟨hm, hr⟩ := h
          obtain ⟨hc3, hc4, hne⟩ := hcond
          obtain ⟨hc1, hc2⟩ := hcc
          subst hc1 hc2 hc3 hc4 hr
          constructor
          · rw [← hm]
            simp only [List.cons_append, List.cons.injEq, true_and, List.append_assoc]
            simp only [List.nil_append]
            rw [← heq, List.takeWhile_append_dropWhile]
          · exact ⟨rest.takeWhile isName, hne, takeWhile_all_isName rest, hm.symm⟩
        · exact absurd h (by simp)
      · exact absurd h (by simp)
      · exact absurd h (by simp)
    · exact absurd h (by simp)

theorem matchPH_shape_append (run : List Char) (hne : run ≠ []) (hall : run.all isName = true)
    (t : List Char) :
    matchPH (('%' :: '(' :: (run ++ [')', 'd'])) ++ t) =
      some ('%' :: '(' :: (run ++ [')', 'd']), t) := by
  have hsplit := takeWhile_all_append run hall ')' (by decide) ('d' :: t)
  have hform : ('%' :: '(' :: (run ++ [')', 'd'])) ++ t = '%' :: '(' :: (run ++ ')' :: 'd' :: t) := by
    simp
  rw [hform]
  simp only [matchPH]
  rw [hsplit.2, hsplit.1]
  simp [hne]

theorem dropWhile_head_not (l : List Char) (y : Char) (ds : List Char)
    (h : l.dropWhile isName = y :: ds) : isName y = false := by
  induction l with
  | nil => simp [List.dropWhile_nil] at h
  | cons a l2 ih =>
    rw [List.dropWhile_cons] at h
    by_cases ha : isName a = true
    · rw [if_pos ha] at h
      exact ih h
    · rw [if_neg ha] at h
      obtain ⟨hy, -⟩ := List.cons.inj h
      rw [hy] at ha
      simpa using ha

theorem isName_quote : isName quoteChar = false := by decide

theorem protect_take_drop : ∀ (n : Nat) (s : List Char), s.length ≤ n →
    (protect s).takeWhile isName = s.takeWhile isName ∧
    (protect s).dropWhile isName = protect (s.dropWhile isName) := by
  intro n
  induction n with
  | zero =>
    intro s hs
    have hnil : s = [] := by
      cases s with
      | nil => rfl
      | cons a t => simp at hs
    subst hnil
    simp [protect_nil]
  | succ n ih =>
    intro s hs
    cases s with
    | nil => simp [protect_nil]
    | cons c cs =>
      cases hm : matchPH (c :: cs) with
      | some p =>
        obtain ⟨m, r⟩ := p
        obtain ⟨hsum, run, hne, hall, hshape⟩ := matchPH_parts _ _ _ hm
        have hc : c = '%' := by
          rw [hshape] at hsum
          simp only [List.cons_append, List.cons.injEq] at hsum
          exact hsum.1
        subst hc
        rw [protect_cons_some _ _ _ _ hm]
        refine ⟨?_, ?_⟩
        · rw [List.takeWhile_cons, if_neg (by simp [isName_quote]),
              List.takeWhile_cons, if_neg (by decide)]
        · rw [List.dropWhile_cons, if_neg (by simp [isName_quote]),
              List.dropWhile_cons, if_neg (by decide)]
          rw [protect_cons_some _ _ _ _ hm]
      | none =>
        rw [protect_cons_none _ _ hm]
        by_cases hcn : isName c = true
        · have hlen : cs.length ≤ n := by
            simp only [List.length_cons] at hs
            omega
          have ihcs := ih cs hlen
          refine ⟨?_, ?_⟩
          · rw [List.takeWhile_cons, if_pos hcn, List.takeWhile_cons, if_pos hcn, ihcs.1]
          · rw [List.dropWhile_cons, if_pos hcn, List.dropWhile_cons, if_pos hcn, ihcs.2]
        · refine ⟨?_, ?_⟩
          · rw [List.takeWhile_cons, if_neg hcn, List.takeWhile_cons, if_neg hcn]
          · rw [List.dropWhile_cons, if_neg hcn, List.dropWhile_cons, if_neg hcn]
            rw [protect_cons_none _ _ hm]

theorem matchPH_protect_none : ∀ (s : List Char), matchPH s = none → matchPH (protect s) = none := by
  intro s h
  cases s with
  | nil => rw [protect_nil]; rfl
  | cons c cs =>
    rw [protect_cons_none _ _ h]
    by_cases hc : c = '%'
    · subst hc
      cases cs with
      | nil => rw [protect_nil]; rfl
      | cons c2 cs2 =>
        by_cases hc2 : c2 = '('
        · subst hc2
          have hcs : matchPH ('(' :: cs2) = none := matchPH_head_ne '(' (by decide) cs2
          rw [protect_cons_none _ _ hcs]
          have hsplit := protect_take_drop cs2.length cs2 le_rfl
          simp only [matchPH] at h ⊢
          simp only [and_self, if_true] at h ⊢
          rw [hsplit.1, hsplit.2]
          by_cases hrun : cs2.takeWhile isName = []
          · split
            · simp [hrun]
            · rfl
            · rfl
          · cases hdp : cs2.dropWhile isName with
            | nil => simp [protect_nil]
            | cons y ds =>
              rw [hdp] at h
              by_cases hy2 : y = ')'
              · subst hy2
                cases ds with
                | nil =>
                  rw [protect_cons_none _ _ (matchPH_head_ne ')' (by decide) []),
                    protect_nil]
                | cons z ds2 =>
                  by_cases hz : z = 'd'
                  · subst hz
                    simp [hrun] at h
                  · have hm1 : matchPH (')' :: z :: ds2) = none :=
                      matchPH_head_ne ')' (by decide) _
                    rw [protect_cons_none _ _ hm1]
                    cases hm2 : matchPH (z :: ds2) with
                    | some p =>
                      obtain ⟨m2, r2⟩ := p
                      rw [protect_cons_some _ _ _ _ hm2]
                      simp [show ¬(quoteChar = 'd') from by decide]
                    | none =>
                      rw [protect_cons_none _ _ hm2]
                      simp [hz]
              · cases hm2 : matchPH (y :: ds) with
                | some p =>
                  obtain ⟨m2, r2⟩ := p
                  obtain ⟨-, run2, -, -, hshape2⟩ := matchPH_parts _ _ _ hm2
                  rw [protect_cons_some _ _ _ _ hm2, hshape2]
                  simp [show ¬(quoteChar = ')') from by decide]
                | none =>
                  rw [protect_cons_none _ _ hm2]
                  cases protect ds with
                  | nil => rfl
                  | cons w ws => simp [hy2]
        · cases hm2 : matchPH (c2 :: cs2) with
          | some p =>
            obtain ⟨m2, r2⟩ := p
            rw [protect_cons_some _ _ _ _ hm2]
            exact matchPH_second_ne quoteChar (by decide) _ _
          | none =>
            rw [protect_cons_none _ _ hm2]
            exact matchPH_second_ne c2 hc2 _ _
    · exact matchPH_head_ne c hc _

theorem unprotect_protect_aux : ∀ (n : Nat) (s : List Char), s.length ≤ n →
    unprotect (protect s) = s := by
  intro n
  induction n with
  | zero =>
    intro s hs
    have hnil : s = [] := by
      cases s with
      | nil => rfl
      | cons a t => simp at hs
    subst hnil
    rw [protect_nil, unprotect_nil]
  | succ n ih =>
    intro s hs
    cases s with
    | nil => rw [protect_nil, unprotect_nil]
    | cons c cs =>
      cases hm : matchPH (c :: cs) with
      | some p =>
        obtain ⟨m, r⟩ := p
        obtain ⟨hsum, run, hne, hall, hshape⟩ := matchPH_parts _ _ _ hm
        rw [protect_cons_some _ _ _ _ hm]
        have hmp : matchPH (m ++ (quoteChar :: protect r)) = some (m, quoteChar :: protect r) := by
          rw [hshape]
          exact matchPH_shape_append run hne hall _
        rw [unprotect_quote_matched _ _ _ hmp]
        have hr : r.length ≤ n := by
          have := matchPH_some_len _ _ _ hm
          simp only [List.length_cons] at this hs
          omega
        rw [ih r hr]
        exact hsum.symm
      | none =>
        rw [protect_cons_none _ _ hm]
        have hcs_len : cs.length ≤ n := by
          simp only [List.length_cons] at hs
          omega
        by_cases hc : c = quoteChar
        · subst hc
          have hnone : matchPH (protect cs) = none := by
            cases hmc : matchPH cs with
            | some p2 =>
              obtain ⟨m2, r2⟩ := p2
              cases cs with
              | nil => simp [matchPH] at hmc
              | cons c2 cs2 =>
                rw [protect_cons_some _ _ _ _ hmc]
                exact matchPH_head_ne quoteChar (by decide) _
            | none => exact matchPH_protect_none cs hmc
          rw [unprotect_quote_unmatched]
          · rw [ih cs hcs_len]
          · intro m3 rt3 hcontra
            rw [hnone] at hcontra
            exact absurd hcontra (by simp)
        · rw [unprotect_other _ _ hc, ih cs hcs_len]

theorem unprotect_protect (s : List Char) : unprotect (protect s) = s :=
  unprotect_protect_aux s.length s le_rfl

theorem countJoins_append (l1 l2 : List Token) :
    countJoins (l1 ++ l2) = countJoins l1 + countJoins l2 := by
  induction l1 with
  | nil => simp [countJoins]
  | cons t ts ih =>
    cases t with
    | cond f op v => simp [countJoins, ih]
    | str s =>
      simp [countJoins, ih]
      omega

theorem countConds_append (l1 l2 : List Token) :
    countConds (l1 ++ l2) = countConds l1 + countConds l2 := by
  induction l1 with
  | nil => simp [countConds]
  | cons t ts ih =>
    cases t with
    | cond f op v =>
      simp [countConds, ih]
      omega
    | str s => simp [countConds, ih]

theorem countJoins_reverse (l : List Token) : countJoins l.reverse = countJoins l := by
  induction l with
  | nil => rfl
  | cons t ts ih =>
    rw [List.reverse_cons, countJoins_append, ih]
    cases t <;> simp [countJoins] <;> omega

theorem countConds_reverse (l : List Token) : countConds l.reverse = countConds l := by
  induction l with
  | nil => rfl
  | cons t ts ih =>
    rw [List.reverse_cons, countConds_append, ih]
    cases t <;> simp [countConds] <;> omega

theorem runTokens_err : ∀ (ts : List Token) (stack : List String),
    (∀ f op v, Token.cond f op v ∈ ts → (OPERATORS op).isSome) →
    countConds ts + stack.length < countJoins ts →
    runTokens ts stack = .error .indexError := by
  intro ts
  induction ts with
  | nil =>
    intro stack _ hc
    simp [countJoins, countConds] at hc
  | cons t ts ih =>
    intro stack hsupp hc
    cases t with
    | cond f op v =>
      have hop := hsupp f op v (by simp)
      cases ho : OPERATORS op with
      | none =>
        rw [ho] at hop
        simp at hop
      | some g =>
        simp only [runTokens, ho]
        apply ih
        · intro f2 o2 v2 hmem
          exact hsupp f2 o2 v2 (by simp [hmem])
        · simp only [countJoins, countConds, List.length_cons] at hc ⊢
          omega
    | str s =>
      by_cases hj : s = "&" ∨ s = "|"
      · simp only [runTokens, if_pos hj]
        cases stack with
        | nil => rfl
        | cons a st2 =>
          cases st2 with
          | nil => rfl
          | cons b rest =>
            apply ih
            · intro f2 o2 v2 hmem
              exact hsupp f2 o2 v2 (by simp [hmem])
            · simp only [countJoins, countConds, List.length_cons, if_pos hj] at hc ⊢
              omega
      · simp only [runTokens, if_neg hj]
        apply ih
        · intro f2 o2 v2 hmem
          exact hsupp f2 o2 v2 (by simp [hmem])
        · simp only [countJoins, countConds, if_neg hj] at hc ⊢
          omega

/-- C7: the literal 0 input converts to the string False and the literal 1
to the string True, with no scan performed. -/
theorem C7_zero_one_shortcut :
    convertExpr (.intLit 0) = .ok "False" ∧ convertExpr (.intLit 1) = .ok "True" :=
  ⟨rfl, rfl⟩

/-- C10: a whole-input Python boolean takes the 0/1 shortcut because the
membership test uses numeric equality, so False converts to the string
False and True to the string True. -/
theorem C10_bool_numeric_shortcut :
    convertExpr (.boolLit false) = .ok "False" ∧ convertExpr (.boolLit true) = .ok "True" :=
  ⟨rfl, rfl⟩

/-- C2: boolean equality and inequality conditions render in the terse
truthy/negated form with no explicit comparison. -/
theorem C2_bool_equality_terse (F : String) :
    renderCondition F "=" (.bool true) = .ok F ∧
    renderCondition F "=" (.bool false) = .ok ("not " ++ F) ∧
    renderCondition F "!=" (.bool true) = .ok ("not " ++ F) ∧
    renderCondition F "!=" (.bool false) = .ok F :=
  ⟨rfl, rfl, rfl, rfl⟩

/-- C1: evaluating the translator on two implicitly joined conditions shows
the implicit-AND collapse swaps the operands: the claimed and documented
output keeps the original order, but the code produces the reversed one,
both for the claim example and for the docstring example of the source. -/
theorem C1_implicit_and_swaps_operands :
    convertExpr (.seq [.cond "a" "=" (.bool true), .cond "b" "=" (.bool true)]) =
      .ok "(b and a)" ∧
    convertExpr (.seq [.cond "artisan_task" "=" (.bool false), .cond "locked" "=" (.bool true)]) =
      .ok "(locked and not artisan_task)" := by
  constructor <;>
    simp [convertExpr, pyEqInt, runTokens, OPERATORS, equals_operator, collapse, finishStack]

/-- C6: on the empty input sequence the translator does not return the
empty string: the debug print evaluates stack[0] on an empty stack and
raises IndexError before the guarded return is reached. -/
theorem C6_empty_input_index_error :
    convertExpr (.seq []) = .error .indexError := by
  simp [convertExpr, pyEqInt, runTokens, collapse, finishStack]

/-- C3 counterexample: the equality operator renders as == (not verbatim as
the operator string says), and the in operator interpolates the value with
str(), dropping the quotes of a string value that the canonical literal
form keeps. -/
theorem C3_counterexample :
    renderCondition "f" "=" (.int 5) = .ok "f == 5" ∧
    specRender "f" "=" (.int 5) = "f = 5" ∧
    ("f == 5" : String) ≠ "f = 5" ∧
    renderCondition "f" "in" (.str "ab") = .ok "f in ab" ∧
    specRender "f" "in" (.str "ab") = "f in " ++ quoteStr ++ "ab" ++ quoteStr ∧
    ("f in ab" : String) ≠ "f in " ++ quoteStr ++ "ab" ++ quoteStr := by
  refine ⟨rfl, rfl, by decide, rfl, rfl, by decide⟩

/-- C3 amended: for a non-boolean value the comparison operators render as
field, blank, rendered operator (== for =), blank, repr(value); in and
not in render the value with str(), which agrees with repr on list values
but drops the quotes of strings. -/
theorem C3_amended_rendering (f : String) (v : PyVal) (h : isBoolVal v = false) :
    renderCondition f "=" v = .ok (f ++ " == " ++ pyRepr v) ∧
    renderCondition f "!=" v = .ok (f ++ " != " ++ pyRepr v) ∧
    renderCondition f ">" v = .ok (f ++ " > " ++ pyRepr v) ∧
    renderCondition f "<" v = .ok (f ++ " < " ++ pyRepr v) ∧
    renderCondition f ">=" v = .ok (f ++ " >= " ++ pyRepr v) ∧
    renderCondition f "<=" v = .ok (f ++ " <= " ++ pyRepr v) ∧
    renderCondition f "in" v = .ok (f ++ " in " ++ pyStr v) ∧
    renderCondition f "not in" v = .ok (f ++ " not in " ++ pyStr v) ∧
    (∀ xs, v = PyVal.list xs → pyStr v = pyRepr v) := by
  cases v with
  | bool b => simp [isBoolVal] at h
  | int n => exact ⟨rfl, rfl, rfl, rfl, rfl, rfl, rfl, rfl, by intro xs hxs; cases hxs⟩
  | str s => exact ⟨rfl, rfl, rfl, rfl, rfl, rfl, rfl, rfl, by intro xs hxs; cases hxs⟩
  | list xs => exact ⟨rfl, rfl, rfl, rfl, rfl, rfl, rfl, rfl, by intro xs2 hxs; rfl⟩

/-- C3 witness: the amended rendering applied at a concrete non-boolean
condition. -/
theorem C3_amended_witness :
    isBoolVal (.int 5) = false ∧
    renderCondition "f" "=" (.int 5) = .ok ("f" ++ " == " ++ pyRepr (.int 5)) :=
  ⟨rfl, (C3_amended_rendering "f" (.int 5) rfl).1⟩

/-- C4: an explicit join token pops the renderings of the two operands,
the first pop being the earlier-appearing one, and pushes the
parenthesised combination in source order, for OR and for AND. -/
theorem C4_explicit_join_order (f1 o1 : String) (v1 : PyVal) (f2 o2 : String) (v2 : PyVal)
    (s1 s2 : String) (h1 : renderCondition f1 o1 v1 = .ok s1)
    (h2 : renderCondition f2 o2 v2 = .ok s2) :
    convertExpr (.seq [.str "|", .cond f1 o1 v1, .cond f2 o2 v2]) =
      .ok ("(" ++ s1 ++ " or " ++ s2 ++ ")") ∧
    convertExpr (.seq [.str "&", .cond f1 o1 v1, .cond f2 o2 v2]) =
      .ok ("(" ++ s1 ++ " and " ++ s2 ++ ")") := by
  unfold renderCondition at h1 h2
  cases ho1 : OPERATORS o1 with
  | none =>
    rw [ho1] at h1
    exact absurd h1 (by simp)
  | some g1 =>
    cases ho2 : OPERATORS o2 with
    | none =>
      rw [ho2] at h2
      exact absurd h2 (by simp)
    | some g2 =>
      rw [ho1] at h1
      rw [ho2] at h2
      simp only [Except.ok.injEq] at h1 h2
      constructor <;>
        simp [convertExpr, pyEqInt, runTokens, ho1, ho2, h1, h2, collapse, finishStack]

/-- C4 witness: the join reduction at the concrete example of the claim. -/
theorem C4_explicit_join_witness :
    renderCondition "a" "=" (.bool false) = .ok "not a" ∧
    renderCondition "b" "in" (.list [.str "x"]) =
      .ok ("b in [" ++ quoteStr ++ "x" ++ quoteStr ++ "]") ∧
    convertExpr (.seq [.str "|", .cond "a" "=" (.bool false), .cond "b" "in" (.list [.str "x"])]) =
      .ok ("(not a or b in [" ++ quoteStr ++ "x" ++ quoteStr ++ "])") := by
  have h1 : renderCondition "a" "=" (.bool false) = .ok "not a" := rfl
  have h2 : renderCondition "b" "in" (.list [.str "x"]) =
      .ok ("b in [" ++ quoteStr ++ "x" ++ quoteStr ++ "]") := rfl
  refine ⟨h1, h2, ?_⟩
  have hmain := (C4_explicit_join_order "a" "=" (.bool false) "b" "in" (.list [.str "x"])
    _ _ h1 h2).1
  rw [hmain]
  rfl

/-- C5 counterexample: a lone join token makes the translator raise the
unnamed stack error (IndexError from pop on an empty stack); no
MalformedExpressionError exists in the code. -/
theorem C5_counterexample :
    convertExpr (.seq [.str "|"]) = .error .indexError := rfl

/-- C5 amended: when a sequence contains more join tokens than condition
operands (and every condition operator is supported, so no KeyError fires
first), the translator fails with the IndexError of a pop on an empty
stack rather than a named MalformedExpressionError. -/
theorem C5_amended_unmatched_join (toks : List Token)
    (hsupp : ∀ f op v, Token.cond f op v ∈ toks → (OPERATORS op).isSome)
    (hcount : countConds toks < countJoins toks) :
    convertExpr (.seq toks) = .error .indexError := by
  have herr : runTokens toks.reverse [] = .error .indexError := by
    apply runTokens_err
    · intro f op v hmem
      exact hsupp f op v (List.mem_reverse.mp hmem)
    · rw [countJoins_reverse, countConds_reverse]
      simpa using hcount
  simp [convertExpr, pyEqInt, herr]

/-- C5 witness: the amended failure at the lone join token of the claim. -/
theorem C5_amended_witness :
    countConds [Token.str "|"] < countJoins [Token.str "|"] ∧
    convertExpr (.seq [Token.str "|"]) = .error .indexError := by
  refine ⟨by simp [countJoins, countConds], ?_⟩
  exact C5_amended_unmatched_join [Token.str "|"]
    (by intro f op v hmem; simp at hmem)
    (by simp [countJoins, countConds])

/-- C8: protecting the %(...)d placeholders of any document text and then
unprotecting restores the text byte for byte. -/
theorem C8_placeholder_roundtrip (s : List Char) : unprotect (protect s) = s :=
  unprotect_protect s

/-- C9 counterexample: a file whose text contains a placeholder and whose
attrs expression raises: the translator error leaves the disk holding the
preprocessed text, which differs from the original (a partial write), and
the batch stops instead of continuing with the second file. -/
theorem C9_counterexample :
    processXmlErr ⟨['%', '(', 'a', ')', 'd'], [Input.seq [Token.str "|"]]⟩ =
      some (.indexError, [quoteChar, '%', '(', 'a', ')', 'd', quoteChar]) ∧
    ([quoteChar, '%', '(', 'a', ')', 'd', quoteChar] ≠ ['%', '(', 'a', ')', 'd']) ∧
    runBatch [⟨['%', '(', 'a', ')', 'd'], [Input.seq [Token.str "|"]]⟩, ⟨['x'], []⟩] =
      [some .indexError] := by
  have hm : matchPH ['%', '(', 'a', ')', 'd'] = some (['%', '(', 'a', ')', 'd'], []) := rfl
  have hp : protect ['%', '(', 'a', ')', 'd'] =
      [quoteChar, '%', '(', 'a', ')', 'd', quoteChar] := by
    rw [protect_cons_some _ _ _ _ hm, protect_nil]
    rfl
  have ht : translateAll [Input.seq [Token.str "|"]] = .error .indexError := rfl
  refine ⟨?_, by decide, ?_⟩
  · simp [processXmlErr, ht, hp]
  · simp [runBatch, processXmlErr, ht]

/-- C9 amended: a translator-level error during attrs conversion leaves the
disk holding the text the preprocess pass already wrote (the protected
text, not the original), and the uncaught exception terminates the batch
after the failing file. -/
theorem C9_amended_partial_write (d : ViewDoc) (e : PyError)
    (h : translateAll d.attrsExprs = .error e) :
    processXmlErr d = some (e, protect d.text) ∧ ∀ ds, runBatch (d :: ds) = [some e] := by
  refine ⟨by simp [processXmlErr, h], ?_⟩
  intro ds
  simp [runBatch, processXmlErr, h]

/-- C9 witness: the amended statement applied at the concrete failing
file. -/
theorem C9_amended_witness :
    translateAll [Input.seq [Token.str "|"]] = .error .indexError ∧
    processXmlErr ⟨['%', '(', 'a', ')', 'd'], [Input.seq [Token.str "|"]]⟩ =
      some (.indexError, protect ['%', '(', 'a', ')', 'd']) := by
  have h : translateAll [Input.seq [Token.str "|"]] = .error .indexError := rfl
  exact ⟨h, (C9_amended_partial_write _ _ h).1⟩

end Attrs
